import Mathlib

/-!
# Verification of the tidal-analysis pipeline (`tidal_analysis.py`)

A shallow embedding, in Lean 4, of the data-handling core of the
tidal-analysis program, together with theorems settling the specified
properties of its components:

* the Record Parser (`read_tidal_data`): file selection, per-row field
  parsing with the M/N/T sentinel-flag rule, timestamp assembly;
* the Series Merger (`join_data`): concatenation followed by
  `sort_index`;
* the Windowing Functions (`extract_single_year_remove_mean`,
  `extract_section_remove_mean`);
* the Contiguity Finder (`get_longest_contiguous_data`): the
  mask / diff / cumsum / groupby-size / idxmax pipeline.

Numeric sea-level values are modelled by exact rationals (`ℚ`), the
usual idealisation of the program's double-precision floats; the
missing marker (`NaN` in the source) is modelled by `Option.none`.
Timestamps are modelled by a `Nat` key that is strictly monotone in
(year, month, day, hour, minute, second), so comparisons and year
extraction on keys agree with comparisons on the underlying datetimes.
-/

namespace Tidal

/-! ## Data model

An `Obs` is one row of the DataFrame built by `read_tidal_data`: a
timestamp key (the index), a sea level that is either a rational or
the missing marker, and the raw residual field.  The source never
converts the `Residual` column (the sentinel replacement at line 40 of
`tidal_analysis.py` names only the `'Sea Level'` column), so the
residual is carried as its literal text. -/

structure Obs where
  t : Nat
  seaLevel : Option ℚ
  residual : String
deriving DecidableEq, Repr

/-! ## Record Parser: field-level parsing

`read_tidal_data` reads whitespace-separated fields as text, replaces
any `'Sea Level'` cell matching the regular expression `.*[MNT]$` by
`NaN`, and then runs `astype(float)` on the column.  A cell whose text
ends in a character other than `M`, `N`, `T` and is not a numeric
literal makes `astype(float)` raise, which aborts the run. -/

/-- `re.search(".*[MNT]$", s)` succeeds exactly when the last character
of `s` is one of the flag letters `M`, `N`, `T`. -/
def flagSuffixMNT (s : String) : Bool :=
  match s.toList.getLast? with
  | some c => c == 'M' || c == 'N' || c == 'T'
  | none => false

/-- The claim-side predicate "the literal text ends in a trailing
non-numeric character" (any non-digit final character). -/
def trailingNonDigit (s : String) : Bool :=
  match s.toList.getLast? with
  | some c => !c.isDigit
  | none => false

/-- Value of a digit character. -/
def digitVal (c : Char) : Nat := c.toNat - 48

/-- The natural number denoted by a digit string (most significant first). -/
def natFromDigits (l : List Char) : Nat := l.foldl (fun a c => a * 10 + digitVal c) 0

/-- The value of a Python `float(...)` call, as far as the rational
idealisation distinguishes it: a finite value, `nan`, or an infinity. -/
inductive PyFloat where
  | finite (q : ℚ)
  | nan
  | inf (neg : Bool)
deriving DecidableEq, Repr

/-- Mantissa of a decimal literal: `digits`, `digits.`, `.digits` or
`digits.digits` — at least one digit overall — as accepted by Python's
`float` (so `12.` and `.5` are well-formed, with values `12` and
`1/2`). -/
def parseMantissa (l : List Char) : Option ℚ :=
  match l.span (fun c => c != '.') with
  | (intPart, []) =>
      if intPart ≠ [] ∧ intPart.all Char.isDigit then
        some ((natFromDigits intPart : ℚ))
      else none
  | (intPart, _ :: frac) =>
      if intPart.all Char.isDigit ∧ frac.all Char.isDigit ∧ (intPart ≠ [] ∨ frac ≠ []) then
        some ((natFromDigits intPart : ℚ) + (natFromDigits frac : ℚ) / (10 ^ frac.length))
      else none

/-- Exponent part of a literal (the text after `e`): an optional sign,
then at least one digit. -/
def parseExponent (l : List Char) : Option Int :=
  match l with
  | '+' :: d => if d ≠ [] ∧ d.all Char.isDigit then some ((natFromDigits d : Int)) else none
  | '-' :: d => if d ≠ [] ∧ d.all Char.isDigit then some (-(natFromDigits d : Int)) else none
  | d => if d ≠ [] ∧ d.all Char.isDigit then some ((natFromDigits d : Int)) else none

/-- Scale a mantissa by a (possibly negative) power of ten. -/
def applyExponent (q : ℚ) (e : Int) : ℚ :=
  if 0 ≤ e then q * (10 : ℚ) ^ e.toNat else q / (10 : ℚ) ^ (-e).toNat

/-- An unsigned numeric literal: a mantissa with an optional
`e`-exponent (the input has already been lowercased, so `E` is `e`). -/
def parseNumber (l : List Char) : Option ℚ :=
  match l.span (fun c => c != 'e') with
  | (mant, []) => parseMantissa mant
  | (mant, _ :: ex) => do
      let m ← parseMantissa mant
      let e ← parseExponent ex
      pure (applyExponent m e)

/-- Python's `float(s)` on the forms a whitespace-delimited field can
take: an optional sign, then — case-insensitively — `nan`, `inf`,
`infinity`, or a decimal literal with optional exponent.  (Python's
`float` also strips surrounding whitespace and allows `_` digit
grouping; neither can reach `astype(float)` through the
whitespace-split reader, so they are not modelled.) -/
def pyFloat (s : String) : Option PyFloat :=
  let l := s.toList.map Char.toLower
  let signBody : Bool × List Char :=
    match l with
    | '+' :: rest => (false, rest)
    | '-' :: rest => (true, rest)
    | _ => (false, l)
  let neg := signBody.1
  let body := signBody.2
  if body = ['n', 'a', 'n'] then some PyFloat.nan
  else if body = ['i', 'n', 'f'] ∨ body = ['i', 'n', 'f', 'i', 'n', 'i', 't', 'y'] then
    some (PyFloat.inf neg)
  else
    match parseNumber body with
    | some q => some (PyFloat.finite (if neg then -q else q))
    | none => none

/-- Processing of one `Sea Level` cell, as in `read_tidal_data`
(lines 39–41): a cell matching `.*[MNT]$` becomes `NaN` — the missing
marker; every other cell goes through `astype(float)`, i.e. Python's
`float`: a finite literal yields its exact value, a `nan` literal
yields `NaN` — again the missing marker — and text `float` rejects
raises, aborting the run (the error value).  A literal denoting an
infinity would put a non-finite yet non-missing value in the column;
that violates the documented Series invariant (`sea_level` is a finite
float or the missing marker), cannot be carried by the rational
idealisation of the column, and is the subject of no claim, so such
cells are outside the modelled domain (mapped to the error value). -/
def processSeaLevel (s : String) : Except String (Option ℚ) :=
  if flagSuffixMNT s then Except.ok none
  else
    match pyFloat s with
    | some (PyFloat.finite q) => Except.ok (some q)
    | some PyFloat.nan => Except.ok none
    | some (PyFloat.inf _) => Except.error s
    | none => Except.error s

/-- Processing of one `Residual` cell: `read_tidal_data` applies no
conversion to the `Residual` column (the `replace` at line 40 names
only `'Sea Level'`), so the cell is carried through unchanged. -/
def processResidual (s : String) : String := s

instance {ε α : Type} [DecidableEq ε] [DecidableEq α] : DecidableEq (Except ε α) := fun a b =>
  match a, b with
  | .ok x, .ok y =>
      if h : x = y then isTrue (by rw [h]) else isFalse (fun hh => h (Except.ok.inj hh))
  | .error e, .error f =>
      if h : e = f then isTrue (by rw [h]) else isFalse (fun hh => h (Except.error.inj hh))
  | .ok _, .error _ => isFalse (fun hh => Except.noConfusion hh)
  | .error _, .ok _ => isFalse (fun hh => Except.noConfusion hh)

/-- C1 (counterexample): "any trailing non-numeric character triggers
replacement by the missing marker" fails on the code in both possible
ways.  The `Sea Level` cell `"12.5X"` is rejected by `astype(float)` —
the run aborts instead of storing the missing marker — while `"12."`
is *accepted* by `astype(float)` with the present value `12.0`,
again not the missing marker. -/
theorem processSeaLevel_trailing_nonnumeric_counterexample :
    (trailingNonDigit "12.5X" = true ∧ processSeaLevel "12.5X" ≠ Except.ok none) ∧
    (trailingNonDigit "12." = true ∧ processSeaLevel "12." ≠ Except.ok none) := by
  decide

/-- C1 (amended): a `Sea Level` field whose literal text ends in one of
the flag letters `M`, `N`, `T` is converted to the missing marker.
Every other sea-level field is handed unchanged to float conversion:
a well-formed numeric literal — including forms such as `12.`, `.5`
and exponent notation — parses to its exact value, a `nan` literal
becomes the missing marker, and text the conversion rejects (such as
`12.5X`) is a fatal error; in neither of the last two cases is the
flag-replacement rule what decides the outcome.  `Residual` fields are
never converted. -/
theorem processSeaLevel_spec (s : String) (q : ℚ) :
    (flagSuffixMNT s = true → processSeaLevel s = Except.ok none) ∧
    (flagSuffixMNT s = false → pyFloat s = some (PyFloat.finite q) →
        processSeaLevel s = Except.ok (some q)) ∧
    (flagSuffixMNT s = false → pyFloat s = some PyFloat.nan →
        processSeaLevel s = Except.ok none) ∧
    (flagSuffixMNT s = false → pyFloat s = none → processSeaLevel s = Except.error s) ∧
    processResidual s = s := by
  refine ⟨?_, ?_, ?_, ?_, rfl⟩
  · intro hf
    simp [processSeaLevel, hf]
  · intro hf hp
    simp [processSeaLevel, hf, hp]
  · intro hf hp
    simp [processSeaLevel, hf, hp]
  · intro hf hp
    simp [processSeaLevel, hf, hp]

/-- Witness for `processSeaLevel_spec`: a flagged cell, a plain numeric
cell, a `nan` cell and a rejected cell. -/
theorem processSeaLevel_spec_witness :
    processSeaLevel "12.5M" = Except.ok none ∧
    processSeaLevel "125" = Except.ok (some (125 : ℚ)) ∧
    processSeaLevel "nan" = Except.ok none ∧
    processSeaLevel "12.5X" = Except.error "12.5X" :=
  ⟨(processSeaLevel_spec "12.5M" 0).1 (by decide),
   (processSeaLevel_spec "125" 125).2.1 (by decide) (by decide),
   (processSeaLevel_spec "nan" 0).2.2.1 (by decide) (by decide),
   (processSeaLevel_spec "12.5X" 0).2.2.2.1 (by decide) (by decide)⟩

/-! ## Record Parser: input selection

`read_tidal_data` (lines 24–30) normalises its argument to a list of
file paths: a directory contributes exactly its entries whose names end
in `".txt"` (joined onto the directory path), and a non-directory path
contributes exactly itself. -/

/-- The two kinds of path the program accepts: a directory together
with its entry names (as returned by `os.listdir`), or a single file. -/
inductive PathKind where
  | dir (entries : List String)
  | file
deriving DecidableEq, Repr

/-- File selection of `read_tidal_data`: for a directory, the entries
whose names end in `".txt"`, each joined onto the directory path (the
list comprehension over `os.listdir` with `f.endswith(".txt")`); for a
single file, just that path. -/
def selectInputFiles (path : String) (k : PathKind) : List String :=
  match k with
  | .dir entries =>
      (entries.filter (fun f => f.endsWith ".txt")).map (fun f => path ++ "/" ++ f)
  | .file => [path]

/-- C10: for a directory, exactly the `".txt"`-suffixed entries are
selected for parsing (each joined onto the directory path); for a
non-directory path, exactly that one path is selected. -/
theorem selectInputFiles_spec (path : String) (k : PathKind) (g : String) :
    g ∈ selectInputFiles path k ↔
      (match k with
       | .dir entries => ∃ f ∈ entries, f.endsWith ".txt" = true ∧ g = path ++ "/" ++ f
       | .file => g = path) := by
  cases k with
  | dir entries =>
      simp only [selectInputFiles, List.mem_map, List.mem_filter]
      constructor
      · rintro ⟨f, ⟨hf, hsuf⟩, rfl⟩
        exact ⟨f, hf, hsuf, rfl⟩
      · rintro ⟨f, hf, hsuf, rfl⟩
        exact ⟨f, ⟨hf, hsuf⟩, rfl⟩
  | file =>
      simp [selectInputFiles]

/-! ## Record Parser: rows

`read_tidal_data` combines the `Date` and `Time` columns with
`pd.to_datetime(df['Date'] + ' ' + df['Time'], format='%Y/%m/%d %H:%M:%S')`
and puts the result in the index.  A datetime is modelled by the `Nat`
key `timeKey`, strictly monotone in the lexicographic order on
(year, month, day, hour, minute, second) for the in-range component
values that `to_datetime` accepts, so `≤` on keys models `≤` on
datetimes and `yearOf` models `.year` on the index.  The calendar
range-validation performed by `to_datetime` (month at most 12, and so
on) is not needed by any property below and is not modelled; an
unparseable field is a fatal error, as in the source. -/

/-- Split a character list at every occurrence of the separator. -/
def splitChar (sep : Char) : List Char → List (List Char)
  | [] => [[]]
  | c :: cs =>
      if c = sep then [] :: splitChar sep cs
      else
        match splitChar sep cs with
        | [] => [[c]]
        | p :: ps => (c :: p) :: ps

/-- A nonempty all-digit field, as accepted by the datetime format codes. -/
def parseNatField (l : List Char) : Option Nat :=
  if l ≠ [] ∧ l.all Char.isDigit then some (natFromDigits l) else none

/-- Encoding of a datetime as a single comparable key. -/
def timeKey (y mo d h mi s : Nat) : Nat :=
  ((((y * 100 + mo) * 100 + d) * 100 + h) * 100 + mi) * 100 + s

/-- The `.year` component of a timestamp key (models `data.index.year`). -/
def yearOf (t : Nat) : Nat := t / 10000000000

/-- Parse the `Date` (`YYYY/MM/DD`) and `Time` (`HH:MM:SS`) fields of a
row into a timestamp key. -/
def parseTimestamp (date time : String) : Option Nat :=
  match splitChar '/' date.toList, splitChar ':' time.toList with
  | [y, mo, d], [h, mi, s] => do
      let y ← parseNatField y
      let mo ← parseNatField mo
      let d ← parseNatField d
      let h ← parseNatField h
      let mi ← parseNatField mi
      let s ← parseNatField s
      pure (timeKey y mo d h mi s)
  | _, _ => none

/-- One data line of an input file, split into its five
whitespace-separated fields `Cycle Date Time "Sea Level" Residual`. -/
structure RawRow where
  cycle : String
  date : String
  time : String
  seaLevel : String
  residual : String
deriving DecidableEq, Repr

/-- Parse one row: assemble the timestamp from `Date` and `Time`,
apply the sentinel rule and float conversion to `Sea Level`, and carry
`Residual` through.  Either failure is fatal, as in the source. -/
def parseRow (r : RawRow) : Except String Obs :=
  match parseTimestamp r.date r.time with
  | none => Except.error (r.date ++ " " ++ r.time)
  | some t =>
      match processSeaLevel r.seaLevel with
      | Except.error e => Except.error e
      | Except.ok v => Except.ok ⟨t, v, processResidual r.residual⟩

/-- Parse the data lines of one file, in order; the first failing row
aborts the file (as the vectorised `to_datetime` / `astype` do). -/
def parseRows : List RawRow → Except String (List Obs)
  | [] => Except.ok []
  | r :: rs =>
      match parseRow r with
      | Except.error e => Except.error e
      | Except.ok o =>
          match parseRows rs with
          | Except.error e => Except.error e
          | Except.ok os => Except.ok (o :: os)

/-- Unfolding of a successful `parseRow`. -/
theorem parseRow_ok (r : RawRow) (o : Obs) (h : parseRow r = Except.ok o) :
    parseTimestamp r.date r.time = some o.t ∧
    processSeaLevel r.seaLevel = Except.ok o.seaLevel ∧
    o.residual = processResidual r.residual := by
  unfold parseRow at h
  split at h
  · exact absurd h (fun hh => Except.noConfusion hh)
  · next t ht =>
      split at h
      · exact absurd h (fun hh => Except.noConfusion hh)
      · next v hv =>
          obtain rfl := (Except.ok.inj h).symm
          exact ⟨ht, hv, rfl⟩

/-- C6: the Record Parser drops no observation.  A successful parse
yields exactly one observation per input row, in order; a row whose
sea-level text carries an `M`/`N`/`T` flag is still present, with the
missing marker as its sea level, so the gap structure of the input is
preserved. -/
theorem parseRows_preserves_rows (rows : List RawRow) (obs : List Obs)
    (h : parseRows rows = Except.ok obs) :
    obs.length = rows.length ∧
    List.Forall₂ (fun (r : RawRow) (o : Obs) =>
      parseTimestamp r.date r.time = some o.t ∧
      processSeaLevel r.seaLevel = Except.ok o.seaLevel ∧
      (flagSuffixMNT r.seaLevel = true → o.seaLevel = none) ∧
      o.residual = r.residual) rows obs := by
  suffices hs : List.Forall₂ (fun (r : RawRow) (o : Obs) =>
      parseTimestamp r.date r.time = some o.t ∧
      processSeaLevel r.seaLevel = Except.ok o.seaLevel ∧
      (flagSuffixMNT r.seaLevel = true → o.seaLevel = none) ∧
      o.residual = r.residual) rows obs by
    exact ⟨hs.length_eq.symm, hs⟩
  induction rows generalizing obs with
  | nil =>
      unfold parseRows at h
      obtain rfl := (Except.ok.inj h).symm
      exact List.Forall₂.nil
  | cons r rs ih =>
      unfold parseRows at h
      cases hr : parseRow r with
      | error e => rw [hr] at h; exact absurd h (fun hh => Except.noConfusion hh)
      | ok o =>
          rw [hr] at h
          cases hrs : parseRows rs with
          | error e => rw [hrs] at h; exact absurd h (fun hh => Except.noConfusion hh)
          | ok os =>
              rw [hrs] at h
              obtain rfl := (Except.ok.inj h).symm
              obtain ⟨ht, hv, hres⟩ := parseRow_ok r o hr
              refine List.Forall₂.cons ⟨ht, hv, ?_, hres⟩ (ih os hrs)
              intro hflag
              rw [show processSeaLevel r.seaLevel = Except.ok none by
                    simp [processSeaLevel, hflag]] at hv
              exact (Except.ok.inj hv).symm

/-- Witness for `parseRows_preserves_rows`: a two-row file whose second
row carries the `M` flag parses to two observations, the flagged one
with a missing sea level. -/
theorem parseRows_preserves_rows_witness :
    (Tidal.parseRows
        [⟨"1", "2000/01/01", "00:00:00", "125", "0"⟩,
         ⟨"2", "2000/01/01", "01:00:00", "12.5M", "0"⟩]).isOk = true ∧
    (∀ obs, Tidal.parseRows
        [⟨"1", "2000/01/01", "00:00:00", "125", "0"⟩,
         ⟨"2", "2000/01/01", "01:00:00", "12.5M", "0"⟩] = Except.ok obs →
      obs.length = 2) := by
  refine ⟨by decide, ?_⟩
  intro obs h
  have := (parseRows_preserves_rows _ obs h).1
  rw [this]
  rfl

/-! ## Windowing Functions

`extract_single_year_remove_mean` selects the rows whose index year
equals the given year; `extract_section_remove_mean` selects the rows
with `start ≤ timestamp ≤ end` (`.loc[start:end]` on the sorted
datetime index is inclusive at both ends).  Both then compute
`['Sea Level'].mean()` — which skips missing values and is `NaN` when
no present value exists — and subtract it from the column.  Subtracting
a number leaves missing entries missing (`NaN - μ = NaN`); subtracting
`NaN` (the zero-present case) turns every entry into `NaN`. -/

/-- The present (non-missing) sea-level values of a series, in order. -/
def presentValues (data : List Obs) : List ℚ :=
  data.filterMap (fun o => o.seaLevel)

/-- `Series.mean()`: the mean of the present values, or the missing
marker when there are none. -/
def meanSeaLevel (data : List Obs) : Option ℚ :=
  let vals := presentValues data
  if vals.length = 0 then none else some (vals.sum / (vals.length : ℚ))

/-- `df['Sea Level'] -= m` as a whole-column operation. -/
def subtractMean (m : Option ℚ) (data : List Obs) : List Obs :=
  match m with
  | some μ => data.map (fun o => { o with seaLevel := o.seaLevel.map (fun x => x - μ) })
  | none => data.map (fun o => { o with seaLevel := none })

/-- The calendar-year window of `extract_single_year_remove_mean`. -/
def yearWindow (year : Nat) (data : List Obs) : List Obs :=
  data.filter (fun o => yearOf o.t == year)

/-- The inclusive date-range window of `extract_section_remove_mean`. -/
def sectionWindow (start stop : Nat) (data : List Obs) : List Obs :=
  data.filter (fun o => start ≤ o.t && o.t ≤ stop)

/-- `extract_single_year_remove_mean(year, data)`: select the year's
rows (`year_data`), then subtract `year_data['Sea Level'].mean()` from
the column. -/
def extract_single_year_remove_mean (year : Nat) (data : List Obs) : List Obs :=
  subtractMean (meanSeaLevel (yearWindow year data)) (yearWindow year data)

/-- `extract_section_remove_mean(start, end, data)`: select
`data.loc[start:end]` (`section_data`), then subtract
`section_data['Sea Level'].mean()` from the column. -/
def extract_section_remove_mean (start stop : Nat) (data : List Obs) : List Obs :=
  subtractMean (meanSeaLevel (sectionWindow start stop data)) (sectionWindow start stop data)

/-- Subtracting a constant shifts the list of present values. -/
theorem presentValues_subtractMean_some (l : List Obs) (μ : ℚ) :
    presentValues (subtractMean (some μ) l) = (presentValues l).map (fun x => x - μ) := by
  induction l with
  | nil => rfl
  | cons o os ih =>
      cases h : o.seaLevel with
      | none => simpa [subtractMean, presentValues, h] using ih
      | some v => simpa [subtractMean, presentValues, h] using ih

/-- Sum after subtracting a constant from every element. -/
theorem sum_map_sub_const (vals : List ℚ) (μ : ℚ) :
    (vals.map (fun x => x - μ)).sum = vals.sum - (vals.length : ℚ) * μ := by
  induction vals with
  | nil => simp
  | cons v vs ih => simp [ih]; ring

/-- Removing the mean produces a series whose present values have mean
exactly zero, provided the window has at least one present value. -/
theorem meanSeaLevel_subtractMean (l : List Obs) (h : presentValues l ≠ []) :
    meanSeaLevel (subtractMean (meanSeaLevel l) l) = some 0 := by
  have hlen : (presentValues l).length ≠ 0 := by
    simpa [List.length_eq_zero] using h
  have hmean : meanSeaLevel l = some ((presentValues l).sum / ((presentValues l).length : ℚ)) := by
    simp [meanSeaLevel, hlen]
  rw [hmean]
  set μ := (presentValues l).sum / ((presentValues l).length : ℚ) with hμ
  have hpv := presentValues_subtractMean_some l μ
  have hq : ((presentValues l).length : ℚ) ≠ 0 := by
    exact_mod_cast hlen
  unfold meanSeaLevel
  rw [hpv]
  simp only [List.length_map, hlen, if_false]
  rw [sum_map_sub_const]
  have hz : (presentValues l).sum - ((presentValues l).length : ℚ) * μ = 0 := by
    rw [hμ]
    field_simp
  rw [hz, zero_div]

/-- Subtracting a (present) mean preserves timestamps, residuals and
the missing/present status of every entry, pointwise. -/
theorem subtractMean_some_pointwise (l : List Obs) (μ : ℚ) :
    List.Forall₂ (fun o o' : Obs => o'.t = o.t ∧ o'.residual = o.residual ∧
      (o.seaLevel = none ↔ o'.seaLevel = none)) l (subtractMean (some μ) l) := by
  induction l with
  | nil => exact List.Forall₂.nil
  | cons o os ih =>
      refine List.Forall₂.cons ⟨rfl, rfl, ?_⟩ ih
      cases h : o.seaLevel <;> simp [h]

/-- When the window has no present value, the mean is the missing
marker and the in-place subtraction leaves the (all-missing) window
unchanged. -/
theorem subtractMean_of_no_present (l : List Obs) (h : presentValues l = []) :
    subtractMean (meanSeaLevel l) l = l := by
  have hall : ∀ o ∈ l, o.seaLevel = none := by
    intro o ho
    exact List.filterMap_eq_nil_iff.mp h o ho
  have hm : meanSeaLevel l = none := by simp [meanSeaLevel, h]
  rw [hm]
  have hid : ∀ o ∈ l, { o with seaLevel := none } = o := by
    intro o ho
    have := hall o ho
    cases o with
    | mk t sl r =>
        simp only at this
        rw [this]
  show l.map (fun o => { o with seaLevel := none }) = l
  conv_rhs => rw [← List.map_id l]
  exact List.map_congr_left hid

/-- C7 (counterexample): a year can be present in the data while all of
its sea levels are missing; the windowed output then has no present
values, so its mean is the missing marker, not `0.0`. -/
theorem extract_year_mean_counterexample :
    (∃ o ∈ [Obs.mk (timeKey 2000 1 1 0 0 0) none "0"], yearOf o.t = 2000) ∧
    meanSeaLevel (extract_single_year_remove_mean 2000
        [Obs.mk (timeKey 2000 1 1 0 0 0) none "0"]) ≠ some 0 := by
  decide

/-- C7 (amended): for every window (calendar year, or inclusive date
range) containing at least one present observation, removing the mean
yields a series whose present values have mean exactly `0`; and each
windowed observation keeps its timestamp, its residual and its
missing/present status (missing values remain missing). -/
theorem extract_remove_mean_spec (year start stop : Nat) (data : List Obs) :
    (presentValues (yearWindow year data) ≠ [] →
       meanSeaLevel (extract_single_year_remove_mean year data) = some 0 ∧
       List.Forall₂ (fun o o' : Obs => o'.t = o.t ∧ o'.residual = o.residual ∧
           (o.seaLevel = none ↔ o'.seaLevel = none))
         (yearWindow year data) (extract_single_year_remove_mean year data)) ∧
    (presentValues (sectionWindow start stop data) ≠ [] →
       meanSeaLevel (extract_section_remove_mean start stop data) = some 0 ∧
       List.Forall₂ (fun o o' : Obs => o'.t = o.t ∧ o'.residual = o.residual ∧
           (o.seaLevel = none ↔ o'.seaLevel = none))
         (sectionWindow start stop data) (extract_section_remove_mean start stop data)) := by
  constructor
  · intro h
    have hlen : (presentValues (yearWindow year data)).length ≠ 0 := by
      simpa [List.length_eq_zero] using h
    have hmean : meanSeaLevel (yearWindow year data) =
        some ((presentValues (yearWindow year data)).sum /
          ((presentValues (yearWindow year data)).length : ℚ)) := by
      simp [meanSeaLevel, hlen]
    refine ⟨meanSeaLevel_subtractMean _ h, ?_⟩
    unfold extract_single_year_remove_mean
    rw [hmean]
    exact subtractMean_some_pointwise _ _
  · intro h
    have hlen : (presentValues (sectionWindow start stop data)).length ≠ 0 := by
      simpa [List.length_eq_zero] using h
    have hmean : meanSeaLevel (sectionWindow start stop data) =
        some ((presentValues (sectionWindow start stop data)).sum /
          ((presentValues (sectionWindow start stop data)).length : ℚ)) := by
      simp [meanSeaLevel, hlen]
    refine ⟨meanSeaLevel_subtractMean _ h, ?_⟩
    unfold extract_section_remove_mean
    rw [hmean]
    exact subtractMean_some_pointwise _ _

/-- Witness for `extract_remove_mean_spec`: a window holding one
present and one missing observation has post-removal mean `0`. -/
theorem extract_remove_mean_spec_witness :
    meanSeaLevel (extract_single_year_remove_mean 2000
      [Obs.mk (timeKey 2000 1 1 0 0 0) (some 2) "0",
       Obs.mk (timeKey 2000 1 1 1 0 0) none "0"]) = some 0 ∧
    meanSeaLevel (extract_section_remove_mean (timeKey 2000 1 1 0 0 0) (timeKey 2000 1 1 1 0 0)
      [Obs.mk (timeKey 2000 1 1 0 0 0) (some 2) "0",
       Obs.mk (timeKey 2000 1 1 1 0 0) none "0"]) = some 0 :=
  ⟨((extract_remove_mean_spec 2000 (timeKey 2000 1 1 0 0 0) (timeKey 2000 1 1 1 0 0)
      [Obs.mk (timeKey 2000 1 1 0 0 0) (some 2) "0",
       Obs.mk (timeKey 2000 1 1 1 0 0) none "0"]).1 (by decide)).1,
   ((extract_remove_mean_spec 2000 (timeKey 2000 1 1 0 0 0) (timeKey 2000 1 1 1 0 0)
      [Obs.mk (timeKey 2000 1 1 0 0 0) (some 2) "0",
       Obs.mk (timeKey 2000 1 1 1 0 0) none "0"]).2 (by decide)).1⟩

/-- C8: when the selected window has zero present values, both
windowing operations are deterministic no-ops: the subtraction of the
(missing) mean leaves the all-missing window exactly as selected —
no exception, no other result. -/
theorem extract_zero_present_noop (year start stop : Nat) (data : List Obs) :
    (presentValues (yearWindow year data) = [] →
       extract_single_year_remove_mean year data = yearWindow year data) ∧
    (presentValues (sectionWindow start stop data) = [] →
       extract_section_remove_mean start stop data = sectionWindow start stop data) :=
  ⟨fun h => subtractMean_of_no_present _ h,
   fun h => subtractMean_of_no_present _ h⟩

/-- Witness for `extract_zero_present_noop` on an all-missing window. -/
theorem extract_zero_present_noop_witness :
    extract_single_year_remove_mean 2000 [Obs.mk (timeKey 2000 1 1 0 0 0) none "0"] =
      yearWindow 2000 [Obs.mk (timeKey 2000 1 1 0 0 0) none "0"] ∧
    extract_section_remove_mean 0 (timeKey 2001 1 1 0 0 0)
        [Obs.mk (timeKey 2000 1 1 0 0 0) none "0"] =
      sectionWindow 0 (timeKey 2001 1 1 0 0 0) [Obs.mk (timeKey 2000 1 1 0 0 0) none "0"] :=
  ⟨(extract_zero_present_noop 2000 0 (timeKey 2001 1 1 0 0 0)
      [Obs.mk (timeKey 2000 1 1 0 0 0) none "0"]).1 (by decide),
   (extract_zero_present_noop 2000 0 (timeKey 2001 1 1 0 0 0)
      [Obs.mk (timeKey 2000 1 1 0 0 0) none "0"]).2 (by decide)⟩

/-! ## Windowing Functions: explicit-state (no-mutation) model

The source subtracts the mean from the `'Sea Level'` column *in place*
(`year_data['Sea Level'] -= mean_sea_level`), but only after taking a
`.copy()` of the selected rows.  To make the frame property provable
rather than vacuous, the DataFrame heap is made explicit: a `Store` of
frames addressed by index, in-place assignment as `writeFrame`, and the
`.copy()` as an allocation of a fresh frame.  Each windowing function
is re-run in this model, following the source line by line. -/

/-- The heap of live DataFrames. -/
structure Store where
  frames : List (List Obs)
deriving DecidableEq, Repr

/-- Dereference a frame (total, with a junk default for dangling refs). -/
def readFrame (s : Store) (r : Nat) : List Obs :=
  (s.frames[r]?).getD []

/-- Allocate a fresh frame holding `d` (models `.copy()`). -/
def allocFrame (s : Store) (d : List Obs) : Store × Nat :=
  (⟨s.frames ++ [d]⟩, s.frames.length)

/-- Overwrite a frame in place (models in-place column assignment). -/
def writeFrame (s : Store) (r : Nat) (d : List Obs) : Store :=
  ⟨s.frames.set r d⟩

/-- `extract_single_year_remove_mean` with the heap explicit:
select the year's rows of `data`, `.copy()` them into a fresh frame,
and subtract the mean from that frame in place, returning its ref. -/
def extract_single_year_remove_mean_st (year : Nat) (s : Store) (ref : Nat) : Store × Nat :=
  let yd := yearWindow year (readFrame s ref)
  let s1 := (allocFrame s yd).1
  let r1 := (allocFrame s yd).2
  let m := meanSeaLevel (readFrame s1 r1)
  let s2 := writeFrame s1 r1 (subtractMean m (readFrame s1 r1))
  (s2, r1)

/-- `extract_section_remove_mean` with the heap explicit. -/
def extract_section_remove_mean_st (start stop : Nat) (s : Store) (ref : Nat) :
    Store × Nat :=
  let sd := sectionWindow start stop (readFrame s ref)
  let s1 := (allocFrame s sd).1
  let r1 := (allocFrame s sd).2
  let m := meanSeaLevel (readFrame s1 r1)
  let s2 := writeFrame s1 r1 (subtractMean m (readFrame s1 r1))
  (s2, r1)

/-- Reading a live frame of `s` is unchanged by the allocation. -/
theorem readFrame_alloc_lt (s : Store) (d : List Obs) (r : Nat)
    (h : r < s.frames.length) : readFrame (allocFrame s d).1 r = readFrame s r := by
  unfold readFrame allocFrame
  simp [List.getElem?_append_left h]

/-- Reading the freshly allocated frame yields its contents. -/
theorem readFrame_alloc_new (s : Store) (d : List Obs) :
    readFrame (allocFrame s d).1 (allocFrame s d).2 = d := by
  unfold readFrame allocFrame
  simp [List.getElem?_concat_length]

/-- Core of the no-mutation argument: copying the window into a fresh
frame and writing the de-meaned column back to *that* frame leaves
every previously live frame untouched, and the fresh frame holds the
de-meaned window. -/
theorem copy_then_write_spec (s : Store) (yd : List Obs) (ref : Nat)
    (h : ref < s.frames.length) :
    readFrame (writeFrame (allocFrame s yd).1 (allocFrame s yd).2
        (subtractMean (meanSeaLevel (readFrame (allocFrame s yd).1 (allocFrame s yd).2))
          (readFrame (allocFrame s yd).1 (allocFrame s yd).2))) ref = readFrame s ref ∧
    (allocFrame s yd).2 ≠ ref ∧
    readFrame (writeFrame (allocFrame s yd).1 (allocFrame s yd).2
        (subtractMean (meanSeaLevel (readFrame (allocFrame s yd).1 (allocFrame s yd).2))
          (readFrame (allocFrame s yd).1 (allocFrame s yd).2))) ((allocFrame s yd).2) =
      subtractMean (meanSeaLevel yd) yd := by
  have hnew := readFrame_alloc_new s yd
  have hne : (allocFrame s yd).2 ≠ ref := by
    show s.frames.length ≠ ref
    exact (Nat.ne_of_lt h).symm
  refine ⟨?_, hne, ?_⟩
  · rw [show readFrame (writeFrame (allocFrame s yd).1 (allocFrame s yd).2 _) ref =
        readFrame (allocFrame s yd).1 ref from ?_]
    · exact readFrame_alloc_lt s yd ref h
    · unfold readFrame writeFrame
      rw [List.getElem?_set_ne hne]
  · rw [hnew]
    unfold readFrame writeFrame
    rw [List.getElem?_set_self]
    · rfl
    · show s.frames.length < (s.frames ++ [yd]).length
      simp

/-- C9: in the explicit-heap model, both windowing operations leave the
input frame exactly as it was — the in-place subtraction hits only the
`.copy()` — they return a reference distinct from the input's, and the
fresh frame holds precisely the (pure) windowed, mean-removed series. -/
theorem windowing_never_mutates_input (year start stop ref : Nat) (s : Store)
    (h : ref < s.frames.length) :
    readFrame (extract_single_year_remove_mean_st year s ref).1 ref = readFrame s ref ∧
    (extract_single_year_remove_mean_st year s ref).2 ≠ ref ∧
    readFrame (extract_single_year_remove_mean_st year s ref).1
        (extract_single_year_remove_mean_st year s ref).2 =
      extract_single_year_remove_mean year (readFrame s ref) ∧
    readFrame (extract_section_remove_mean_st start stop s ref).1 ref = readFrame s ref ∧
    (extract_section_remove_mean_st start stop s ref).2 ≠ ref ∧
    readFrame (extract_section_remove_mean_st start stop s ref).1
        (extract_section_remove_mean_st start stop s ref).2 =
      extract_section_remove_mean start stop (readFrame s ref) := by
  have hy := copy_then_write_spec s (yearWindow year (readFrame s ref)) ref h
  have hs := copy_then_write_spec s (sectionWindow start stop (readFrame s ref)) ref h
  have hynew := readFrame_alloc_new s (yearWindow year (readFrame s ref))
  have hsnew := readFrame_alloc_new s (sectionWindow start stop (readFrame s ref))
  refine ⟨?_, hy.2.1, ?_, ?_, hs.2.1, ?_⟩
  · show readFrame (writeFrame (allocFrame s (yearWindow year (readFrame s ref))).1
        (allocFrame s (yearWindow year (readFrame s ref))).2 _) ref = readFrame s ref
    rw [hynew]
    rw [hynew] at hy
    exact hy.1
  · show readFrame (writeFrame (allocFrame s (yearWindow year (readFrame s ref))).1
        (allocFrame s (yearWindow year (readFrame s ref))).2 _)
        ((allocFrame s (yearWindow year (readFrame s ref))).2) = _
    rw [hynew]
    rw [hynew] at hy
    exact hy.2.2
  · show readFrame (writeFrame (allocFrame s (sectionWindow start stop (readFrame s ref))).1
        (allocFrame s (sectionWindow start stop (readFrame s ref))).2 _) ref = readFrame s ref
    rw [hsnew]
    rw [hsnew] at hs
    exact hs.1
  · show readFrame (writeFrame (allocFrame s (sectionWindow start stop (readFrame s ref))).1
        (allocFrame s (sectionWindow start stop (readFrame s ref))).2 _)
        ((allocFrame s (sectionWindow start stop (readFrame s ref))).2) = _
    rw [hsnew]
    rw [hsnew] at hs
    exact hs.2.2

/-- Witness for `windowing_never_mutates_input` on a one-frame store. -/
theorem windowing_never_mutates_input_witness :
    readFrame (extract_single_year_remove_mean_st 2000
        ⟨[[Obs.mk (timeKey 2000 1 1 0 0 0) (some 2) "0"]]⟩ 0).1 0 =
      [Obs.mk (timeKey 2000 1 1 0 0 0) (some 2) "0"] := by
  have := (windowing_never_mutates_input 2000 0 0 0
      ⟨[[Obs.mk (timeKey 2000 1 1 0 0 0) (some 2) "0"]]⟩ (by decide)).1
  rw [this]
  rfl

/-! ## Series Merger

`join_data` concatenates (`pd.concat`) and then sorts by the index
(`sort_index(inplace=True)`); `read_tidal_data` ends with the same
`sort_index`.  Pandas' `sort_index` has two relevant behaviours:

* if the index is already monotonically increasing it returns the
  frame in its current order unchanged;
* otherwise it reorders by `argsort` with the **default
  `kind='quicksort'`**, which numpy documents as *not stable*: the
  result is some permutation that is non-decreasing on the index, with
  no guarantee on the relative order of equal keys.

`sort_index` is therefore embedded as the relation `sort_index_rel`
between its input and its (one, deterministic, but unspecified-by-
contract) output: the output is a permutation of the input,
non-decreasing by timestamp, and equal to the input whenever the input
is already sorted.  The relation is total (`sort_index_total`). -/

/-- Timestamp order on observations. -/
def timeLE (a b : Obs) : Prop := a.t ≤ b.t

instance : DecidableRel timeLE := fun a b => Nat.decLe a.t b.t

instance : IsTotal Obs timeLE := ⟨fun a b => Nat.le_total a.t b.t⟩

instance : IsTrans Obs timeLE := ⟨fun _ _ _ hab hbc => Nat.le_trans hab hbc⟩

/-- Non-decreasing by timestamp (`index.is_monotonic_increasing`). -/
def SortedByTime (l : List Obs) : Prop := List.Pairwise timeLE l

instance (l : List Obs) : Decidable (SortedByTime l) :=
  List.instDecidablePairwise l

/-- The contract of `sort_index(kind='quicksort')`: the output is a
permutation of the rows, non-decreasing by timestamp; an
already-monotonic input is returned unchanged; nothing is promised
about the relative order of equal timestamps (numpy quicksort is not
a stable sort). -/
def sort_index_rel (input output : List Obs) : Prop :=
  output.Perm input ∧ SortedByTime output ∧ (SortedByTime input → output = input)

instance (input output : List Obs) : Decidable (sort_index_rel input output) := by
  unfold sort_index_rel
  infer_instance

/-- `join_data(data1, data2)`: `pd.concat([data1, data2])` followed by
`sort_index`, as a relation between inputs and result. -/
def join_data (data1 data2 output : List Obs) : Prop :=
  sort_index_rel (data1 ++ data2) output

instance (d1 d2 output : List Obs) : Decidable (join_data d1 d2 output) := by
  unfold join_data
  infer_instance

/-- The `sort_index` contract is satisfiable for every input: a sorting
permutation always exists. -/
theorem sort_index_total (l : List Obs) : sort_index_rel l (List.insertionSort timeLE l) :=
  ⟨List.perm_insertionSort timeLE l,
   List.sorted_insertionSort timeLE l,
   fun hs => List.Sorted.insertionSort_eq hs⟩

/-- C4: merging two series always admits an output, and every output
consistent with the merge is exactly the multiset union of the two
inputs' observations, in non-decreasing timestamp order — for either
input ordering, since `d1` and `d2` are arbitrary. -/
theorem join_data_spec (d1 d2 out : List Obs) :
    (∃ o, join_data d1 d2 o) ∧
    (join_data d1 d2 out → out.Perm (d1 ++ d2) ∧ SortedByTime out) :=
  ⟨⟨List.insertionSort timeLE (d1 ++ d2), sort_index_total (d1 ++ d2)⟩,
   fun h => ⟨h.1, h.2.1⟩⟩

/-- Witness for `join_data_spec` on concrete unsorted inputs. -/
theorem join_data_spec_witness :
    (([Obs.mk 1 (some 1) "a", Obs.mk 3 (some 3) "c"] : List Obs).Perm
        ([Obs.mk 3 (some 3) "c"] ++ [Obs.mk 1 (some 1) "a"])) ∧
    SortedByTime [Obs.mk 1 (some 1) "a", Obs.mk 3 (some 3) "c"] :=
  (join_data_spec [Obs.mk 3 (some 3) "c"] [Obs.mk 1 (some 1) "a"]
      [Obs.mk 1 (some 1) "a", Obs.mk 3 (some 3) "c"]).2 (by decide)

/-! Whether a merge keeps equal-timestamp observations in their input
order is left unsettled here.  `sort_index_rel` is the *contract* of
`sort_index(kind='quicksort')` — a sorted permutation, the input
returned unchanged when already monotonic — and deliberately promises
nothing about tie order, since numpy does not document its quicksort
as stable.  The program's actual tie behaviour is decided by numpy's
introsort internals (a stable insertion sort below its small-array
cutoff, partition-dependent above it), which are outside this
embedding; no theorem below asserts or refutes tie stability. -/

/-! ## Contiguity Finder

`get_longest_contiguous_data` (lines 153–169):

```
valid_data_mask = data['Sea Level'].notna()
blocks = valid_data_mask.astype(int).diff().fillna(0).ne(0).cumsum()
filtered_data = data[valid_data_mask]
longest_block = filtered_data.groupby(blocks[valid_data_mask]).size().idxmax()
return filtered_data[blocks[valid_data_mask] == longest_block]
```

The embedding follows this line by line: `notnaMask` is the boolean
mask; `blocks` assigns to each row the running count of mask changes
(`diff` of the first row is `NaN`, filled with `0`, so the first row
gets id `0`); `presentPairs` is the present rows paired with their
block ids (`filtered_data` alongside `blocks[valid_data_mask]`);
`groupSizes` is `groupby(...).size()` — the distinct keys in ascending
order, each with its group's row count (pandas `groupby` sorts its
keys); `idxmax` returns the first key attaining the maximal count, and
`none` on an empty series (where pandas raises
`ValueError: attempt to get argmax of an empty sequence`). -/

instance : Inhabited Obs := ⟨⟨0, none, ""⟩⟩

/-- `data['Sea Level'].notna()`. -/
def isPresent (o : Obs) : Bool := o.seaLevel.isSome

/-- `data['Sea Level'].notna()` as a column. -/
def notnaMask (data : List Obs) : List Bool := data.map isPresent

/-- `mask.astype(int).diff().fillna(0).ne(0).cumsum()` after the first
row: each row's id is the previous id, incremented when the mask value
changed. -/
def blocksAux (prev : Bool) (acc : Nat) : List Bool → List Nat
  | [] => []
  | b :: bs =>
      if b = prev then acc :: blocksAux b acc bs
      else (acc + 1) :: blocksAux b (acc + 1) bs

/-- The block-id column: the first row's `diff` is `NaN`, filled with
`0`, so the first row always has id `0`. -/
def blocks : List Bool → List Nat
  | [] => []
  | b :: bs => 0 :: blocksAux b 0 bs

/-- `filtered_data` paired with `blocks[valid_data_mask]`: the present
rows, each with its block id. -/
def presentPairs (data : List Obs) : List (Obs × Nat) :=
  (data.zip (blocks (notnaMask data))).filter (fun p => isPresent p.1)

/-- `groupby(keys).size()`: the distinct keys in ascending order, each
with the number of rows carrying it. -/
def groupSizes (ks : List Nat) : List (Nat × Nat) :=
  (List.insertionSort (· ≤ ·) ks.dedup).map (fun k => (k, ks.count k))

/-- `Series.idxmax()` kernel: the (key, value) pair with maximal value,
earliest key on ties (pandas returns the first occurrence of the
maximum; the group keys are in ascending order). -/
def idxmaxAux : List (Nat × Nat) → Option (Nat × Nat)
  | [] => none
  | (k, n) :: rest =>
      match idxmaxAux rest with
      | none => some (k, n)
      | some (k', n') => if n' > n then some (k', n') else some (k, n)

/-- `Series.idxmax()`: `none` models the `ValueError` raised on an
empty series. -/
def idxmax (l : List (Nat × Nat)) : Option Nat :=
  (idxmaxAux l).map (fun p => p.1)

/-- The message of the `ValueError` pandas raises when `idxmax` is
applied to an empty size series. -/
def idxmaxEmptyMsg : String := "attempt to get argmax of an empty sequence"

/-- `get_longest_contiguous_data(data)`. -/
def get_longest_contiguous_data (data : List Obs) : Except String (List Obs) :=
  match idxmax (groupSizes ((presentPairs data).map (fun p => p.2))) with
  | none => Except.error idxmaxEmptyMsg
  | some k => Except.ok (((presentPairs data).filter (fun p => p.2 == k)).map (fun p => p.1))

/-! ### Runs decomposition (specification side)

A `ContiguousSegment` is a maximal run of consecutive observations
with equal presence, so the reference decomposition splits the series
into maximal runs of constant `isPresent`. -/

/-- Maximal runs of constant `f`-value, in order. -/
def runsBy (f : Obs → Bool) : List Obs → List (List Obs)
  | [] => []
  | x :: xs =>
      match runsBy f xs with
      | [] => [[x]]
      | [] :: rest => [x] :: rest
      | (y :: ys) :: rest =>
          if f x = f y then (x :: y :: ys) :: rest else [x] :: (y :: ys) :: rest

/-- The `ContiguousSegment`s of a series: its maximal all-present runs. -/
def presentRuns (data : List Obs) : List (List Obs) :=
  (runsBy isPresent data).filter (fun r => r.all isPresent)

/-- Concatenating the runs restores the series. -/
theorem runsBy_flatten (f : Obs → Bool) (l : List Obs) : (runsBy f l).flatten = l := by
  induction l with
  | nil => rfl
  | cons x xs ih =>
      unfold runsBy
      cases hr : runsBy f xs with
      | nil =>
          rw [hr] at ih
          simp only [List.flatten] at ih
          simp [List.flatten, ← ih]
      | cons r rest =>
          rw [hr] at ih
          cases r with
          | nil =>
              simp only [List.flatten] at ih ⊢
              simpa using ih
          | cons y ys =>
              by_cases hf : f x = f y
              · simp only [hf, if_true, List.flatten] at ih ⊢
                simp [← ih]
              · simp only [hf, if_false, List.flatten] at ih ⊢
                simp [← ih]

/-- `runsBy` returns no empty run. -/
theorem runsBy_ne_nil (f : Obs → Bool) (l : List Obs) : ∀ r ∈ runsBy f l, r ≠ [] := by
  induction l with
  | nil => intro r hr; exact absurd hr (by simp [runsBy])
  | cons x xs ih =>
      intro r hr
      unfold runsBy at hr
      cases hrx : runsBy f xs with
      | nil =>
          rw [hrx] at hr
          simp only [List.mem_singleton] at hr
          rw [hr]
          exact List.cons_ne_nil _ _
      | cons r0 rest =>
          rw [hrx] at hr
          cases r0 with
          | nil =>
              rcases List.mem_cons.mp hr with h1 | h1
              · rw [h1]; exact List.cons_ne_nil _ _
              · exact ih r (by rw [hrx]; exact List.mem_cons_of_mem _ h1)
          | cons y ys =>
              simp only [] at hr
              by_cases hf : f x = f y
              · rw [if_pos hf] at hr
                rcases List.mem_cons.mp hr with h1 | h1
                · rw [h1]; exact List.cons_ne_nil _ _
                · exact ih r (by rw [hrx]; exact List.mem_cons_of_mem _ h1)
              · rw [if_neg hf] at hr
                rcases List.mem_cons.mp hr with h1 | h1
                · rw [h1]; exact List.cons_ne_nil _ _
                · exact ih r (by rw [hrx]; exact h1)

/-- Within one run, `f` is constant (equal to its value on the head). -/
theorem runsBy_constant (f : Obs → Bool) (l : List Obs) :
    ∀ r ∈ runsBy f l, ∀ a ∈ r, f a = f r.headI := by
  induction l with
  | nil => intro r hr; exact absurd hr (by simp [runsBy])
  | cons x xs ih =>
      intro r hr a ha
      unfold runsBy at hr
      cases hrx : runsBy f xs with
      | nil =>
          rw [hrx] at hr
          simp only [List.mem_singleton] at hr
          subst hr
          simp only [List.mem_singleton] at ha
          subst ha
          rfl
      | cons r0 rest =>
          rw [hrx] at hr
          cases r0 with
          | nil =>
              rcases List.mem_cons.mp hr with h1 | h1
              · subst h1
                simp only [List.mem_singleton] at ha
                subst ha
                rfl
              · exact ih r (by rw [hrx]; exact List.mem_cons_of_mem _ h1) a ha
          | cons y ys =>
              simp only [] at hr
              by_cases hf : f x = f y
              · rw [if_pos hf] at hr
                rcases List.mem_cons.mp hr with h1 | h1
                · subst h1
                  rcases List.mem_cons.mp ha with h2 | h2
                  · subst h2; rfl
                  · have hy := ih (y :: ys) (by rw [hrx]; exact List.mem_cons_self _ _) a h2
                    simp only [List.headI] at hy ⊢
                    rw [hy, ← hf]
                · exact ih r (by rw [hrx]; exact List.mem_cons_of_mem _ h1) a ha
              · rw [if_neg hf] at hr
                rcases List.mem_cons.mp hr with h1 | h1
                · subst h1
                  simp only [List.mem_singleton] at ha
                  subst ha
                  rfl
                · exact ih r (by rw [hrx]; exact h1) a ha

/-- Every run is homogeneous: all-`f` or all-not-`f`. -/
theorem runsBy_homog (f : Obs → Bool) (l : List Obs) :
    ∀ r ∈ runsBy f l, r.all f = true ∨ r.all (fun o => !(f o)) = true := by
  intro r hr
  cases hh : f r.headI with
  | false =>
      right
      apply List.all_eq_true.mpr
      intro a ha
      rw [runsBy_constant f l r hr a ha, hh]
      rfl
  | true =>
      left
      apply List.all_eq_true.mpr
      intro a ha
      rw [runsBy_constant f l r hr a ha, hh]

/-- The first run of `runsBy f (x :: xs)` starts with `x`. -/
theorem runsBy_cons_shape (f : Obs → Bool) (x : Obs) (xs : List Obs) :
    ∃ t rs, runsBy f (x :: xs) = (x :: t) :: rs := by
  unfold runsBy
  cases runsBy f xs with
  | nil => exact ⟨[], [], rfl⟩
  | cons r0 rest =>
      cases r0 with
      | nil => exact ⟨[], rest, rfl⟩
      | cons y ys =>
          by_cases hf : f x = f y
          · exact ⟨y :: ys, rest, by simp [hf]⟩
          · exact ⟨[], (y :: ys) :: rest, by simp [hf]⟩

/-- Block ids of a runs decomposition: the `i`-th run (counting from
`k`) contributes its length many copies of id `k + i`. -/
def runIdsFrom (k : Nat) : List (List Obs) → List Nat
  | [] => []
  | r :: rs => List.replicate r.length k ++ runIdsFrom (k + 1) rs

/-- One-step unfolding of `blocksAux`. -/
theorem blocksAux_cons (prev : Bool) (acc : Nat) (b : Bool) (bs : List Bool) :
    blocksAux prev acc (b :: bs) =
      if b = prev then acc :: blocksAux b acc bs
      else (acc + 1) :: blocksAux b (acc + 1) bs := rfl

/-- Bridge between the `diff/cumsum` id assignment and the runs
decomposition, generalised over the id accumulator and the previous
mask value. -/
theorem blocksAux_runs (f : Obs → Bool) (xs : List Obs) :
    ∀ (prev : Bool) (acc : Nat),
    blocksAux prev acc (xs.map f) =
      match runsBy f xs with
      | [] => []
      | r :: rs =>
          if f r.headI = prev then List.replicate r.length acc ++ runIdsFrom (acc + 1) rs
          else runIdsFrom (acc + 1) (r :: rs) := by
  induction xs with
  | nil => intro prev acc; rfl
  | cons x xs ih =>
      intro prev acc
      rw [List.map_cons, blocksAux_cons]
      cases hrx : runsBy f xs with
      | nil =>
          have hxs : xs = [] := by
            have hfl := runsBy_flatten f xs
            rw [hrx] at hfl
            simpa using hfl.symm
          subst hxs
          have hrs : runsBy f [x] = [[x]] := rfl
          rw [hrs]
          simp only [List.map_nil, List.headI, List.length_cons, List.length_nil,
            runIdsFrom, List.replicate]
          by_cases hfx : f x = prev
          · rw [if_pos hfx, if_pos hfx]
            rfl
          · rw [if_neg hfx, if_neg hfx]
            rfl
      | cons r0 rest =>
          have hne0 : r0 ≠ [] := runsBy_ne_nil f xs r0 (by rw [hrx]; exact List.mem_cons_self _ _)
          cases r0 with
          | nil => exact absurd rfl hne0
          | cons y ys =>
              have hcons : runsBy f (x :: xs) =
                  if f x = f y then (x :: y :: ys) :: rest else [x] :: (y :: ys) :: rest := by
                unfold runsBy
                rw [hrx]
              by_cases hf : f x = f y
              · rw [hcons, if_pos hf]
                simp only [List.headI]
                by_cases hfx : f x = prev
                · rw [if_pos hfx, if_pos hfx]
                  rw [ih (f x) acc, hrx]
                  simp only [List.headI]
                  rw [if_pos hf.symm]
                  simp [List.replicate_succ]
                · rw [if_neg hfx, if_neg hfx]
                  rw [ih (f x) (acc + 1), hrx]
                  simp only [List.headI]
                  rw [if_pos hf.symm]
                  simp [runIdsFrom, List.replicate_succ]
              · rw [hcons, if_neg hf]
                simp only [List.headI]
                have hyx : ¬ (f y = f x) := fun hc => hf hc.symm
                by_cases hfx : f x = prev
                · rw [if_pos hfx, if_pos hfx]
                  rw [ih (f x) acc, hrx]
                  simp only [List.headI]
                  rw [if_neg hyx]
                  simp [List.replicate_succ]
                · rw [if_neg hfx, if_neg hfx]
                  rw [ih (f x) (acc + 1), hrx]
                  simp only [List.headI]
                  rw [if_neg hyx]
                  simp [runIdsFrom, List.replicate_succ]

/-- The block-id column is exactly the run index of each row. -/
theorem blocks_runs (f : Obs → Bool) (l : List Obs) :
    blocks (l.map f) = runIdsFrom 0 (runsBy f l) := by
  cases l with
  | nil => rfl
  | cons x xs =>
      obtain ⟨t, rs, hshape⟩ := runsBy_cons_shape f x xs
      rw [List.map_cons]
      show 0 :: blocksAux (f x) 0 (xs.map f) = _
      have h1 : blocksAux (f x) 0 ((x :: xs).map f) = 0 :: blocksAux (f x) 0 (xs.map f) := by
        rw [List.map_cons, blocksAux_cons, if_pos rfl]
      rw [← h1, blocksAux_runs f (x :: xs) (f x) 0, hshape]
      simp only [List.headI]
      simp [runIdsFrom]

/-- The rows of each run paired with that run's block id; a run that is
not all-present contributes nothing once the mask filter is applied. -/
def chunkPairs (f : Obs → Bool) (k : Nat) : List (List Obs) → List (List (Obs × Nat))
  | [] => []
  | r :: rs =>
      (if r.all f then r.zip (List.replicate r.length k) else []) :: chunkPairs f (k + 1) rs

/-- The present runs with their block ids. -/
def presentKeyed (f : Obs → Bool) (k : Nat) : List (List Obs) → List (Nat × List Obs)
  | [] => []
  | r :: rs => (if r.all f then [(k, r)] else []) ++ presentKeyed f (k + 1) rs

/-- Filtering the zipped (row, id) sequence by the mask keeps exactly
the all-present runs' chunks. -/
theorem zip_runIds_filter (f : Obs → Bool) (rs : List (List Obs))
    (hhom : ∀ r ∈ rs, r.all f = true ∨ r.all (fun o => !(f o)) = true) :
    ∀ k, ((rs.flatten).zip (runIdsFrom k rs)).filter (fun p => f p.1) =
      (chunkPairs f k rs).flatten := by
  induction rs with
  | nil => intro k; rfl
  | cons r rest ih =>
      intro k
      have hlen : r.length = (List.replicate r.length k).length := by
        rw [List.length_replicate]
      have hz : ((r :: rest).flatten).zip (runIdsFrom k (r :: rest)) =
          r.zip (List.replicate r.length k) ++ (rest.flatten).zip (runIdsFrom (k + 1) rest) := by
        show (r ++ rest.flatten).zip (List.replicate r.length k ++ runIdsFrom (k + 1) rest) = _
        exact List.zip_append hlen
      rw [hz, List.filter_append]
      have hrest := ih (fun q hq => hhom q (List.mem_cons_of_mem _ hq)) (k + 1)
      rw [hrest]
      show _ = (if r.all f then r.zip (List.replicate r.length k) else []) ++
        (chunkPairs f (k + 1) rest).flatten
      congr 1
      rcases hhom r (List.mem_cons_self _ _) with hall | hnone
      · rw [if_pos hall]
        apply List.filter_eq_self.mpr
        intro p hp
        have hp1 : p.1 ∈ r := by
          obtain ⟨a, b⟩ := p
          exact (List.of_mem_zip hp).1
        exact List.all_eq_true.mp hall _ hp1
      · by_cases hall : r.all f
        · rw [if_pos hall]
          apply List.filter_eq_self.mpr
          intro p hp
          have hp1 : p.1 ∈ r := by
            obtain ⟨a, b⟩ := p
            exact (List.of_mem_zip hp).1
          exact List.all_eq_true.mp hall _ hp1
        · rw [if_neg hall]
          apply List.filter_eq_nil_iff.mpr
          intro p hp
          have hp1 : p.1 ∈ r := by
            obtain ⟨a, b⟩ := p
            exact (List.of_mem_zip hp).1
          have := List.all_eq_true.mp hnone _ hp1
          simp only [Bool.not_eq_true'] at this
          simp [this]

/-- `filtered_data` with its ids is the concatenation of the
all-present runs' chunks. -/
theorem presentPairs_chunks (data : List Obs) :
    presentPairs data = (chunkPairs isPresent 0 (runsBy isPresent data)).flatten := by
  unfold presentPairs
  have h1 : notnaMask data = data.map isPresent := rfl
  rw [h1, blocks_runs isPresent data]
  have h2 := zip_runIds_filter isPresent (runsBy isPresent data)
    (runsBy_homog isPresent data) 0
  rw [runsBy_flatten isPresent data] at h2
  exact h2

/-- Ids in `presentKeyed f k rs` are at least `k`. -/
theorem presentKeyed_key_le (f : Obs → Bool) (rs : List (List Obs)) :
    ∀ k, ∀ p ∈ presentKeyed f k rs, k ≤ p.1 := by
  induction rs with
  | nil => intro k p hp; exact absurd hp (by simp [presentKeyed])
  | cons r rest ih =>
      intro k p hp
      unfold presentKeyed at hp
      rcases List.mem_append.mp hp with h1 | h1
      · by_cases hall : r.all f
        · rw [if_pos hall] at h1
          simp only [List.mem_singleton] at h1
          rw [h1]
        · rw [if_neg hall] at h1
          exact absurd h1 (by simp)
      · have := ih (k + 1) p h1
        omega

/-- Ids in `presentKeyed` are strictly increasing. -/
theorem presentKeyed_pairwise (f : Obs → Bool) (rs : List (List Obs)) :
    ∀ k, List.Pairwise (fun p q : Nat × List Obs => p.1 < q.1) (presentKeyed f k rs) := by
  induction rs with
  | nil => intro k; exact List.Pairwise.nil
  | cons r rest ih =>
      intro k
      unfold presentKeyed
      apply List.pairwise_append.mpr
      refine ⟨?_, ih (k + 1), ?_⟩
      · by_cases hall : r.all f
        · rw [if_pos hall]
          exact List.pairwise_singleton _ _
        · rw [if_neg hall]
          exact List.Pairwise.nil
      · intro p hp q hq
        have hq1 : k + 1 ≤ q.1 := presentKeyed_key_le f rest (k + 1) q hq
        by_cases hall : r.all f
        · rw [if_pos hall] at hp
          simp only [List.mem_singleton] at hp
          rw [hp]
          omega
        · rw [if_neg hall] at hp
          exact absurd hp (by simp)

/-- Each entry of `presentKeyed` is an all-present run of `rs`. -/
theorem presentKeyed_mem_sub (f : Obs → Bool) (rs : List (List Obs)) :
    ∀ k p, p ∈ presentKeyed f k rs → p.2 ∈ rs ∧ p.2.all f = true := by
  induction rs with
  | nil => intro k p hp; exact absurd hp (by simp [presentKeyed])
  | cons r rest ih =>
      intro k p hp
      unfold presentKeyed at hp
      rcases List.mem_append.mp hp with h1 | h1
      · by_cases hall : r.all f
        · rw [if_pos hall] at h1
          simp only [List.mem_singleton] at h1
          rw [h1]
          exact ⟨List.mem_cons_self _ _, hall⟩
        · rw [if_neg hall] at h1
          exact absurd h1 (by simp)
      · obtain ⟨hm, ha⟩ := ih (k + 1) p h1
        exact ⟨List.mem_cons_of_mem _ hm, ha⟩

/-- The filtered runs are the runs of `presentKeyed`, in order. -/
theorem filter_all_eq_keyed (f : Obs → Bool) (rs : List (List Obs)) :
    ∀ k, rs.filter (fun r => r.all f) = (presentKeyed f k rs).map (fun p => p.2) := by
  induction rs with
  | nil => intro k; rfl
  | cons r rest ih =>
      intro k
      unfold presentKeyed
      rw [List.filter_cons]
      by_cases hall : r.all f
      · rw [if_pos hall, if_pos hall]
        simp only [List.singleton_append, List.map_cons]
        rw [ih (k + 1)]
      · rw [if_neg hall, if_neg hall]
        simp only [List.nil_append]
        exact ih (k + 1)

/-- `presentRuns` in terms of `presentKeyed`. -/
theorem presentRuns_eq_keyed (data : List Obs) :
    presentRuns data =
      (presentKeyed isPresent 0 (runsBy isPresent data)).map (fun p => p.2) :=
  filter_all_eq_keyed isPresent (runsBy isPresent data) 0

/-- Ids in the flattened chunks are at least the starting id. -/
theorem chunkPairs_snd_ge (f : Obs → Bool) (rs : List (List Obs)) :
    ∀ k, ∀ p ∈ (chunkPairs f k rs).flatten, k ≤ p.2 := by
  induction rs with
  | nil => intro k p hp; exact absurd hp (by simp [chunkPairs])
  | cons r rest ih =>
      intro k p hp
      rw [show chunkPairs f k (r :: rest) =
          (if r.all f then r.zip (List.replicate r.length k) else []) ::
            chunkPairs f (k + 1) rest from rfl, List.flatten_cons] at hp
      rcases List.mem_append.mp hp with h1 | h1
      · by_cases hall : r.all f
        · rw [if_pos hall] at h1
          have hp2 : p.2 ∈ List.replicate r.length k := by
            obtain ⟨a, b⟩ := p
            exact (List.of_mem_zip h1).2
          rw [(List.mem_replicate.mp hp2).2]
        · rw [if_neg hall] at h1
          exact absurd h1 (by simp)
      · have := ih (k + 1) p h1
        omega

/-- The id column of the present rows: each present run contributes its
length many copies of its id. -/
theorem chunkPairs_snd (f : Obs → Bool) (rs : List (List Obs)) :
    ∀ k, ((chunkPairs f k rs).flatten).map (fun p : Obs × Nat => p.2) =
      ((presentKeyed f k rs).map (fun p => List.replicate p.2.length p.1)).flatten := by
  induction rs with
  | nil => intro k; rfl
  | cons r rest ih =>
      intro k
      rw [show chunkPairs f k (r :: rest) =
          (if r.all f then r.zip (List.replicate r.length k) else []) ::
            chunkPairs f (k + 1) rest from rfl, List.flatten_cons, List.map_append, ih (k + 1)]
      rw [show presentKeyed f k (r :: rest) =
          (if r.all f then [(k, r)] else []) ++ presentKeyed f (k + 1) rest from rfl,
        List.map_append, List.flatten_append]
      congr 1
      by_cases hall : r.all f
      · rw [if_pos hall, if_pos hall]
        show (r.zip (List.replicate r.length k)).map Prod.snd = _
        rw [List.map_snd_zip _ _ (by rw [List.length_replicate])]
        simp
      · rw [if_neg hall, if_neg hall]
        rfl

/-- A key smaller than every id of a keyed family does not occur in its
id column. -/
theorem count_keyed_zero (ps : List (Nat × List Obs)) (c : Nat)
    (h : ∀ p ∈ ps, c ≠ p.1) :
    List.count c ((ps.map (fun q => List.replicate q.2.length q.1)).flatten) = 0 := by
  induction ps with
  | nil => rfl
  | cons p0 tail ih =>
      rw [List.map_cons, List.flatten_cons, List.count_append]
      rw [List.count_replicate]
      rw [if_neg (by simp [Ne.symm (h p0 (List.mem_cons_self _ _))])]
      rw [ih (fun q hq => h q (List.mem_cons_of_mem _ hq))]

/-- Each key of a strictly-increasing keyed family occurs in the id
column exactly as often as its run is long. -/
theorem count_keyed (ps : List (Nat × List Obs))
    (hpw : List.Pairwise (fun p q : Nat × List Obs => p.1 < q.1) ps) :
    ∀ p ∈ ps, List.count p.1 ((ps.map (fun q => List.replicate q.2.length q.1)).flatten) =
      p.2.length := by
  induction ps with
  | nil => intro p hp; exact absurd hp (by simp)
  | cons p0 tail ih =>
      intro p hp
      have hpw' := List.pairwise_cons.mp hpw
      rw [List.map_cons, List.flatten_cons, List.count_append]
      rcases List.mem_cons.mp hp with h1 | h1
      · subst h1
        rw [List.count_replicate, if_pos (by simp)]
        rw [count_keyed_zero tail p.1
          (fun q hq => Nat.ne_of_lt (hpw'.1 q hq))]
        omega
      · rw [List.count_replicate,
          if_neg (by simp [Nat.ne_of_lt (hpw'.1 p h1)]),
          ih hpw'.2 p h1]
        omega

/-- Membership in the id column is membership among the keys. -/
theorem mem_keyed_ids (ps : List (Nat × List Obs))
    (hne : ∀ p ∈ ps, p.2 ≠ []) (c : Nat) :
    c ∈ (ps.map (fun q => List.replicate q.2.length q.1)).flatten ↔
      ∃ p ∈ ps, p.1 = c := by
  rw [List.mem_flatten]
  constructor
  · rintro ⟨l, hl, hcl⟩
    obtain ⟨p, hp, rfl⟩ := List.mem_map.mp hl
    exact ⟨p, hp, ((List.mem_replicate.mp hcl).2).symm⟩
  · rintro ⟨p, hp, rfl⟩
    refine ⟨List.replicate p.2.length p.1, List.mem_map.mpr ⟨p, hp, rfl⟩, ?_⟩
    rw [List.mem_replicate]
    exact ⟨by simpa [List.length_eq_zero] using hne p hp, rfl⟩

/-- `groupby(ids).size()` of the present id column is exactly the
(key, run length) family, in ascending key order. -/
theorem groupSizes_keyed (ps : List (Nat × List Obs))
    (hpw : List.Pairwise (fun p q : Nat × List Obs => p.1 < q.1) ps)
    (hne : ∀ p ∈ ps, p.2 ≠ []) :
    groupSizes ((ps.map (fun q => List.replicate q.2.length q.1)).flatten) =
      ps.map (fun p => (p.1, p.2.length)) := by
  set ids := (ps.map (fun q => List.replicate q.2.length q.1)).flatten with hids
  have hkeys_nodup : (ps.map (fun p => p.1)).Nodup := by
    apply List.Pairwise.map
    · exact fun a b hab => hab
    · exact hpw.imp Nat.ne_of_lt
  have hkeys_sorted : List.Sorted (· ≤ ·) (ps.map (fun p => p.1)) := by
    apply List.Pairwise.map
    · exact fun a b hab => hab
    · exact hpw.imp Nat.le_of_lt
  have hmem : ∀ c, c ∈ ids.dedup ↔ c ∈ ps.map (fun p => p.1) := by
    intro c
    rw [List.mem_dedup, hids, mem_keyed_ids ps hne c]
    simp [List.mem_map, eq_comm]
  have hperm : ids.dedup.Perm (ps.map (fun p => p.1)) :=
    (List.perm_ext_iff_of_nodup (List.nodup_dedup ids) hkeys_nodup).mpr hmem
  have hsort_eq : List.insertionSort (· ≤ ·) ids.dedup = ps.map (fun p => p.1) :=
    List.eq_of_perm_of_sorted ((List.perm_insertionSort _ _).trans hperm)
      (List.sorted_insertionSort _ _) hkeys_sorted
  unfold groupSizes
  rw [hsort_eq, List.map_map]
  apply List.map_congr_left
  intro p hp
  show (p.1, List.count p.1 ids) = (p.1, p.2.length)
  rw [hids, count_keyed ps hpw p hp]

/-- One-step unfolding of `idxmaxAux`. -/
theorem idxmaxAux_cons (k n : Nat) (tail : List (Nat × Nat)) :
    idxmaxAux ((k, n) :: tail) =
      match idxmaxAux tail with
      | none => some (k, n)
      | some (k', n') => if n' > n then some (k', n') else some (k, n) := rfl

/-- `idxmax` of a nonempty series: it returns the first entry whose
value is maximal — everything before it is strictly smaller, and
everything after is no larger. -/
theorem idxmaxAux_spec (l : List (Nat × Nat)) (hl : l ≠ []) :
    ∃ k n pre post, idxmaxAux l = some (k, n) ∧ l = pre ++ (k, n) :: post ∧
      (∀ p ∈ pre, p.2 < n) ∧ (∀ p ∈ post, p.2 ≤ n) := by
  induction l with
  | nil => exact absurd rfl hl
  | cons hd tail ih =>
      obtain ⟨k, n⟩ := hd
      by_cases htail : tail = []
      · subst htail
        refine ⟨k, n, [], [], ?_, rfl, by simp, by simp⟩
        rw [idxmaxAux_cons]
        rfl
      · obtain ⟨k', n', pre', post', hmax', hdecomp', hpre', hpost'⟩ := ih htail
        rw [idxmaxAux_cons, hmax']
        simp only []
        by_cases hgt : n' > n
        · rw [if_pos hgt]
          refine ⟨k', n', (k, n) :: pre', post', rfl, by simp [hdecomp'], ?_, hpost'⟩
          intro p hp
          rcases List.mem_cons.mp hp with h1 | h1
          · rw [h1]; exact hgt
          · exact hpre' p h1
        · rw [if_neg hgt]
          have hle : n' ≤ n := Nat.le_of_not_lt hgt
          refine ⟨k, n, [], tail, rfl, rfl, by simp, ?_⟩
          intro p hp
          rw [hdecomp'] at hp
          rcases List.mem_append.mp hp with h1 | h1
          · exact Nat.le_of_lt (Nat.lt_of_lt_of_le (hpre' p h1) hle)
          · rcases List.mem_cons.mp h1 with h2 | h2
            · rw [h2]; exact hle
            · exact Nat.le_trans (hpost' p h2) hle

/-- Splitting a mapped list splits the original. -/
theorem map_decomp {α β : Type} (g : α → β) :
    ∀ (L : List α) (pre : List β) (a : β) (post : List β),
    L.map g = pre ++ a :: post →
    ∃ preL x postL, L = preL ++ x :: postL ∧ preL.map g = pre ∧ g x = a ∧
      postL.map g = post := by
  intro L
  induction L with
  | nil => intro pre a post h; exact absurd h (by simp)
  | cons x xs ih =>
      intro pre a post h
      cases pre with
      | nil =>
          simp only [List.map_cons, List.nil_append] at h
          obtain ⟨h1, h2⟩ := List.cons.inj h
          exact ⟨[], x, xs, rfl, rfl, h1, h2⟩
      | cons b pre' =>
          simp only [List.map_cons, List.cons_append] at h
          obtain ⟨h1, h2⟩ := List.cons.inj h
          obtain ⟨preL, x0, postL, hL, hpre, hx, hpost⟩ := ih pre' a post h2
          exact ⟨x :: preL, x0, postL, by simp [hL], by simp [hpre, h1], hx, hpost⟩

/-- Filtering the present rows by the chosen block id extracts exactly
that id's run (zipped with its id). -/
theorem filter_key_chunks (f : Obs → Bool) (rs : List (List Obs)) :
    ∀ k (pre post : List (Nat × List Obs)) (k0 : Nat) (r0 : List Obs),
    presentKeyed f k rs = pre ++ (k0, r0) :: post →
    ((chunkPairs f k rs).flatten).filter (fun p => p.2 == k0) =
      r0.zip (List.replicate r0.length k0) := by
  induction rs with
  | nil =>
      intro k pre post k0 r0 h
      exact absurd h (by cases pre <;> simp [presentKeyed])
  | cons r rest ih =>
      intro k pre post k0 r0 h
      unfold presentKeyed at h
      rw [show chunkPairs f k (r :: rest) =
          (if r.all f then r.zip (List.replicate r.length k) else []) ::
            chunkPairs f (k + 1) rest from rfl, List.flatten_cons, List.filter_append]
      by_cases hall : r.all f
      · rw [if_pos hall] at h ⊢
        cases pre with
        | nil =>
            simp only [List.singleton_append, List.nil_append] at h
            obtain ⟨h1, h2⟩ := List.cons.inj h
            have hk : k = k0 := congrArg Prod.fst h1
            have hr : r = r0 := congrArg Prod.snd h1
            subst hk
            subst hr
            have hself : (r.zip (List.replicate r.length k)).filter (fun p => p.2 == k) =
                r.zip (List.replicate r.length k) := by
              apply List.filter_eq_self.mpr
              intro p hp
              have hp2 : p.2 ∈ List.replicate r.length k := by
                obtain ⟨a, b⟩ := p
                exact (List.of_mem_zip hp).2
              rw [(List.mem_replicate.mp hp2).2]
              simp
            have hrest0 :
                ((chunkPairs f (k + 1) rest).flatten).filter (fun p => p.2 == k) = [] := by
              apply List.filter_eq_nil_iff.mpr
              intro p hp
              have hge := chunkPairs_snd_ge f rest (k + 1) p hp
              simp only [beq_iff_eq]
              omega
            rw [hself, hrest0, List.append_nil]
        | cons b pre' =>
            simp only [List.singleton_append, List.cons_append, List.nil_append] at h
            obtain ⟨h1, h2⟩ := List.cons.inj h
            have hk0 : k + 1 ≤ k0 := by
              have : (k0, r0) ∈ presentKeyed f (k + 1) rest := by
                rw [h2]
                exact List.mem_append.mpr (Or.inr (List.mem_cons_self _ _))
              exact presentKeyed_key_le f rest (k + 1) _ this
            have hfilter0 :
                (r.zip (List.replicate r.length k)).filter (fun p => p.2 == k0) = [] := by
              apply List.filter_eq_nil_iff.mpr
              intro p hp
              have hp2 : p.2 ∈ List.replicate r.length k := by
                obtain ⟨a, b⟩ := p
                exact (List.of_mem_zip hp).2
              rw [(List.mem_replicate.mp hp2).2]
              simp
              omega
            rw [hfilter0, List.nil_append]
            exact ih (k + 1) pre' post k0 r0 h2
      · rw [if_neg hall] at h ⊢
        simp only [List.nil_append] at h
        rw [show (List.filter (fun p => p.2 == k0) ([] : List (Obs × Nat))) = [] from rfl,
          List.nil_append]
        exact ih (k + 1) pre post k0 r0 h

/-- A series with a present observation has at least one all-present
run. -/
theorem presentRuns_ne_nil (data : List Obs) (h : ∃ o ∈ data, isPresent o = true) :
    presentRuns data ≠ [] := by
  obtain ⟨o, ho, hp⟩ := h
  have hflat : o ∈ (runsBy isPresent data).flatten := by
    rw [runsBy_flatten]
    exact ho
  obtain ⟨r, hr, hor⟩ := List.mem_flatten.mp hflat
  have hall : r.all isPresent = true := by
    rcases runsBy_homog isPresent data r hr with h1 | h1
    · exact h1
    · have := List.all_eq_true.mp h1 o hor
      rw [hp] at this
      exact absurd this (by decide)
  exact List.ne_nil_of_mem (List.mem_filter.mpr ⟨hr, hall⟩)

/-- C3: on a series with zero present observations (all sea levels
missing), the Contiguity Finder reaches `idxmax` of an empty size
series, which raises (modelled as the error value) rather than
returning a segment. -/
theorem get_longest_contiguous_data_all_missing (data : List Obs)
    (h : ∀ o ∈ data, o.seaLevel = none) :
    get_longest_contiguous_data data = Except.error idxmaxEmptyMsg := by
  have hpp : presentPairs data = [] := by
    apply List.filter_eq_nil_iff.mpr
    intro p hp
    have hp1 : p.1 ∈ data := by
      obtain ⟨a, b⟩ := p
      exact (List.of_mem_zip hp).1
    show ¬ isPresent p.1 = true
    unfold isPresent
    rw [h p.1 hp1]
    decide
  unfold get_longest_contiguous_data
  rw [hpp]
  rfl

/-- Witness for `get_longest_contiguous_data_all_missing` on a concrete
all-missing series. -/
theorem get_longest_contiguous_data_all_missing_witness :
    get_longest_contiguous_data
        [Obs.mk 0 none "a", Obs.mk 1 none "b"] = Except.error idxmaxEmptyMsg :=
  get_longest_contiguous_data_all_missing _ (by decide)

/-- C2: on any series with at least one present observation, the
Contiguity Finder succeeds and returns one of the series'
`ContiguousSegment`s (maximal all-present runs, `presentRuns`): the
one of greatest length, and the earliest such run on ties — every
segment before it is strictly shorter and every one after it is no
longer.  The returned segment is nonempty and is a contiguous slice of
the input, so original timestamp order is preserved within it. -/
theorem get_longest_contiguous_data_spec (data : List Obs)
    (h : ∃ o ∈ data, isPresent o = true) :
    ∃ seg pre post i,
      get_longest_contiguous_data data = Except.ok seg ∧
      presentRuns data = pre ++ seg :: post ∧
      (∀ c ∈ pre, c.length < seg.length) ∧
      (∀ c ∈ post, c.length ≤ seg.length) ∧
      seg ≠ [] ∧
      seg = (data.drop i).take seg.length := by
  have hpwps : List.Pairwise (fun p q : Nat × List Obs => p.1 < q.1)
      (presentKeyed isPresent 0 (runsBy isPresent data)) :=
    presentKeyed_pairwise _ _ 0
  have hneps : ∀ p ∈ presentKeyed isPresent 0 (runsBy isPresent data), p.2 ≠ [] := fun p hp =>
    runsBy_ne_nil isPresent data p.2 (presentKeyed_mem_sub _ _ 0 p hp).1
  have hids : (presentPairs data).map (fun p => p.2) =
      ((presentKeyed isPresent 0 (runsBy isPresent data)).map
        (fun q => List.replicate q.2.length q.1)).flatten := by
    rw [presentPairs_chunks]
    exact chunkPairs_snd isPresent (runsBy isPresent data) 0
  have hsizes : groupSizes ((presentPairs data).map (fun p => p.2)) =
      (presentKeyed isPresent 0 (runsBy isPresent data)).map (fun p => (p.1, p.2.length)) := by
    rw [hids]
    exact groupSizes_keyed _ hpwps hneps
  have hpruns : presentRuns data ≠ [] := presentRuns_ne_nil data h
  have hpsne : presentKeyed isPresent 0 (runsBy isPresent data) ≠ [] := by
    intro hnil
    apply hpruns
    rw [presentRuns_eq_keyed, hnil]
    rfl
  have hsne : (presentKeyed isPresent 0 (runsBy isPresent data)).map
      (fun p => (p.1, p.2.length)) ≠ [] := by
    simpa using hpsne
  obtain ⟨k0, n0, spre, spost, hmax, hdecomp, hspre, hspost⟩ :=
    idxmaxAux_spec _ hsne
  obtain ⟨preK, p0, postK, hKdecomp, hKpre, hKval, hKpost⟩ :=
    map_decomp (fun p : Nat × List Obs => (p.1, p.2.length)) _ spre (k0, n0) spost hdecomp
  obtain ⟨kk, r0⟩ := p0
  have hkk : kk = k0 := congrArg Prod.fst hKval
  subst hkk
  have hr0len : r0.length = n0 := congrArg Prod.snd hKval
  have hmemps : (kk, r0) ∈ presentKeyed isPresent 0 (runsBy isPresent data) := by
    rw [hKdecomp]
    exact List.mem_append.mpr (Or.inr (List.mem_cons_self _ _))
  have hresult : get_longest_contiguous_data data = Except.ok
      (((presentPairs data).filter (fun p => p.2 == kk)).map (fun p => p.1)) := by
    unfold get_longest_contiguous_data
    rw [hsizes]
    unfold idxmax
    rw [hmax]
    rfl
  have hfilter : ((presentPairs data).filter (fun p => p.2 == kk)) =
      r0.zip (List.replicate r0.length kk) := by
    rw [presentPairs_chunks]
    exact filter_key_chunks isPresent (runsBy isPresent data) 0 preK postK kk r0 hKdecomp
  have hmapfst : (r0.zip (List.replicate r0.length kk)).map (fun p => p.1) = r0 := by
    show List.map Prod.fst _ = r0
    exact List.map_fst_zip _ _ (by rw [List.length_replicate])
  have hpr : presentRuns data =
      (preK.map (fun p => p.2)) ++ r0 :: (postK.map (fun p => p.2)) := by
    rw [presentRuns_eq_keyed, hKdecomp]
    simp
  have hprelen : ∀ c ∈ preK.map (fun p : Nat × List Obs => p.2), c.length < r0.length := by
    intro c hc
    obtain ⟨p, hp, rfl⟩ := List.mem_map.mp hc
    have hmem : (p.1, p.2.length) ∈ spre := by
      rw [← hKpre]
      exact List.mem_map_of_mem _ hp
    have := hspre _ hmem
    simpa [hr0len] using this
  have hpostlen : ∀ c ∈ postK.map (fun p : Nat × List Obs => p.2), c.length ≤ r0.length := by
    intro c hc
    obtain ⟨p, hp, rfl⟩ := List.mem_map.mp hc
    have hmem : (p.1, p.2.length) ∈ spost := by
      rw [← hKpost]
      exact List.mem_map_of_mem _ hp
    have := hspost _ hmem
    simpa [hr0len] using this
  have hr0ne : r0 ≠ [] := hneps (kk, r0) hmemps
  have hr0mem : r0 ∈ runsBy isPresent data := (presentKeyed_mem_sub _ _ 0 (kk, r0) hmemps).1
  obtain ⟨rsA, rsB, hrsAB⟩ := List.append_of_mem hr0mem
  have hdata : data = rsA.flatten ++ (r0 ++ rsB.flatten) := by
    conv_lhs => rw [← runsBy_flatten isPresent data]
    rw [hrsAB]
    simp [List.flatten_append]
  refine ⟨r0, preK.map (fun p => p.2), postK.map (fun p => p.2), rsA.flatten.length,
    ?_, hpr, hprelen, hpostlen, hr0ne, ?_⟩
  · rw [hresult, hfilter, hmapfst]
  · conv_lhs => rw [← List.take_left r0 rsB.flatten]
    rw [hdata, List.drop_left]

/-- Witness for `get_longest_contiguous_data_spec`: the synthetic
present/missing pattern `[P,P,M,P,P,P,M,P]` yields the 3-long run at
indices 3–5 (not the 2-long run at 0–1 or the 1-long run at 7), and
the general theorem instantiates at it. -/
theorem get_longest_contiguous_data_spec_witness :
    get_longest_contiguous_data
        [Obs.mk 0 (some 0) "", Obs.mk 1 (some 1) "", Obs.mk 2 none "",
         Obs.mk 3 (some 3) "", Obs.mk 4 (some 4) "", Obs.mk 5 (some 5) "",
         Obs.mk 6 none "", Obs.mk 7 (some 7) ""] =
      Except.ok [Obs.mk 3 (some 3) "", Obs.mk 4 (some 4) "", Obs.mk 5 (some 5) ""] ∧
    (∃ seg pre post i,
      get_longest_contiguous_data
          [Obs.mk 0 (some 0) "", Obs.mk 1 (some 1) "", Obs.mk 2 none "",
           Obs.mk 3 (some 3) "", Obs.mk 4 (some 4) "", Obs.mk 5 (some 5) "",
           Obs.mk 6 none "", Obs.mk 7 (some 7) ""] = Except.ok seg ∧
      presentRuns
          [Obs.mk 0 (some 0) "", Obs.mk 1 (some 1) "", Obs.mk 2 none "",
           Obs.mk 3 (some 3) "", Obs.mk 4 (some 4) "", Obs.mk 5 (some 5) "",
           Obs.mk 6 none "", Obs.mk 7 (some 7) ""] = pre ++ seg :: post ∧
      (∀ c ∈ pre, c.length < seg.length) ∧
      (∀ c ∈ post, c.length ≤ seg.length) ∧
      seg ≠ [] ∧
      seg = (List.drop i
          [Obs.mk 0 (some 0) "", Obs.mk 1 (some 1) "", Obs.mk 2 none "",
           Obs.mk 3 (some 3) "", Obs.mk 4 (some 4) "", Obs.mk 5 (some 5) "",
           Obs.mk 6 none "", Obs.mk 7 (some 7) ""]).take seg.length) :=
  ⟨by decide, get_longest_contiguous_data_spec _ (by decide)⟩

end Tidal
